import Mathlib

/-!
Verification of the core of `disk_analyzer.py`: the `FolderInfo` data model,
the recursive cancellable `DiskScanner`, the `ScannerWorker` outcome logic,
the utility functions `format_size` and `calculate_percentage`, and the
treemap layout routine `TreemapWidget._draw_treemap`.

Modelling conventions:
* Byte sizes are `Nat` (Python `st_size` is a non-negative int).
* Geometry is exact rational arithmetic (`ℚ`); the Python source uses
  floats, and the geometric claims are about the real-number arithmetic the
  code performs.
* The filesystem seen by one scan is a finite tree (`FSEntry`); a file
  carries `none` as its size when `stat` would raise, a directory carries
  `none` as its listing when `iterdir` would raise.  A nonexistent root is
  `none : Option FSEntry`.
* The cross-thread cancellation flag is modelled by the index of the first
  flag check that observes it set (`none` = never set): the scanner checks
  the flag once per `_scan_folder` call, in traversal order, so any
  real-time point of cancellation corresponds to some check index `k`.
-/

namespace DiskAnalysis

/-- The `FolderInfo` dataclass: a path, the entry's own size in bytes, and
the list of child nodes in discovery order. -/
inductive FolderInfo where
  | mk (path : String) (size : Nat) (children : List FolderInfo)

def FolderInfo.path : FolderInfo → String
  | .mk p _ _ => p

def FolderInfo.size : FolderInfo → Nat
  | .mk _ s _ => s

def FolderInfo.children : FolderInfo → List FolderInfo
  | .mk _ _ cs => cs

mutual
/-- Model of `FolderInfo.total_size`: `self.size + sum(child.total_size for
child in self.children)`. -/
def FolderInfo.total_size : FolderInfo → Nat
  | .mk _ s cs => s + totalSizeList cs

def totalSizeList : List FolderInfo → Nat
  | [] => 0
  | c :: rest => c.total_size + totalSizeList rest
end

/-- A model filesystem entry: a regular file whose size query may fail, or a
directory whose listing may fail. -/
inductive FSEntry where
  | file (path : String) (size : Option Nat)
  | dir (path : String) (listing : Option (List FSEntry))

def FSEntry.path : FSEntry → String
  | .file p _ => p
  | .dir p _ => p

/-- Whether the cancellation flag reads as set at its `c`-th check, when the
flag becomes set just before check number `k` (`none` = never set). -/
def cancelHit : Option Nat → Nat → Bool
  | none, _ => false
  | some k, c => decide (k ≤ c)

mutual
/-- Model of `DiskScanner._scan_folder`: check the cancellation flag, then list the
directory; a failing listing (or a non-directory argument, where `iterdir`
raises `NotADirectoryError`) is absorbed into a childless node of size 0.
Returns the node together with the updated flag-check counter. -/
def scanFolder (k : Option Nat) (c : Nat) : FSEntry → FolderInfo × Nat
  | .file p _ =>
    if cancelHit k c then (.mk p 0 [], c + 1) else (.mk p 0 [], c + 1)
  | .dir p none =>
    if cancelHit k c then (.mk p 0 [], c + 1) else (.mk p 0 [], c + 1)
  | .dir p (some l) =>
    if cancelHit k c then (.mk p 0 [], c + 1)
    else
      let r := scanEntries k (c + 1) l
      (.mk p 0 r.1, r.2)

/-- The body of the `for item in path.iterdir()` loop: files whose `stat`
fails are skipped, readable files become leaves, directories recurse (the
recursive call never raises, so its surrounding `except` is dead code). -/
def scanEntries (k : Option Nat) (c : Nat) : List FSEntry → List FolderInfo × Nat
  | [] => ([], c)
  | .file _ none :: rest => scanEntries k c rest
  | .file p (some s) :: rest =>
    let r := scanEntries k c rest
    (.mk p s [] :: r.1, r.2)
  | .dir p lst :: rest =>
    let rd := scanFolder k c (.dir p lst)
    let r := scanEntries k rd.2 rest
    (rd.1 :: r.1, r.2)
end

/-- Model of `DiskScanner.scan`: `None` when the root path does not exist, otherwise
the tree built by `_scan_folder`. -/
def scan (k : Option Nat) (root : Option FSEntry) : Option FolderInfo :=
  match root with
  | none => none
  | some e => some (scanFolder k 0 e).1

/-- The two externally visible outcomes a `ScannerWorker` run can emit. -/
inductive ScanOutcome where
  | completed (tree : FolderInfo)
  | failed (message : String)

/-- Model of `ScannerWorker.run`: emit `finished(result)` when `scan` returns a tree
(a `FolderInfo` instance is always truthy), else emit the error signal. -/
def workerRun (k : Option Nat) (root : Option FSEntry) : ScanOutcome :=
  match scan k root with
  | some t => .completed t
  | none => .failed "Failed to scan folder"

/-- Round a rational to the nearest integer, ties to even (the rounding of
Python's float formatting). -/
def roundHalfEven (q : ℚ) : ℤ :=
  if q - Int.floor q < 1 / 2 then Int.floor q
  else if 1 / 2 < q - Int.floor q then Int.floor q + 1
  else if Int.floor q % 2 = 0 then Int.floor q else Int.floor q + 1

/-- Render a non-negative rational with one decimal digit, as Python's
format specifier does for the values reached here. -/
def decimal1 (q : ℚ) : String :=
  let n := roundHalfEven (10 * q)
  toString (n / 10) ++ "." ++ toString (n % 10)

/-- The unit loop of `format_size`: divide by 1024 while the current unit is
too small, falling through to `PB` after the listed units are exhausted. -/
def format_size_go : ℚ → List String → String
  | q, [] => decimal1 q ++ " PB"
  | q, u :: rest => if q < 1024 then decimal1 q ++ " " ++ u else format_size_go (q / 1024) rest

/-- Model of `format_size`: bytes to a human-readable string. -/
def format_size (sizeBytes : Nat) : String :=
  format_size_go (sizeBytes : ℚ) ["B", "KB", "MB", "GB", "TB"]

/-- Model of `calculate_percentage`: the guarded percentage helper. -/
def calculate_percentage (size total : ℤ) : ℚ :=
  if 0 < total then (size : ℚ) / (total : ℚ) * 100 else 0

/-- One insertion step of a stable descending sort by `total_size`: the new
element is placed before the first element whose key is `≤` its own, so it
lands after every earlier-discovered element of equal key. -/
def insertByTotalDesc (a : FolderInfo) : List FolderInfo → List FolderInfo
  | [] => [a]
  | b :: rest =>
    if b.total_size ≤ a.total_size then a :: b :: rest
    else b :: insertByTotalDesc a rest

/-- Model of `sorted(items, key=lambda item: item.total_size, reverse=True)`:
a stable sort, descending by `total_size`. -/
def sortByTotalDesc (l : List FolderInfo) : List FolderInfo :=
  l.foldr insertByTotalDesc []

/-- The constant `spacing = 5`, the fixed gap between treemap rectangles. -/
def spacing : ℚ := 5

/-- Model of `Path(p).name`: the last nonempty path component. -/
def leafName (p : String) : String :=
  ((p.splitOn "/").filter (fun s => s ≠ "")).getLastD ""

/-- The text placed on a labelled rectangle: the first 15 characters of the
leaf path segment, a newline, and the formatted total size. -/
def labelText (item : FolderInfo) : String :=
  (leafName item.path).take 15 ++ "\n" ++ format_size item.total_size

/-- One rectangle produced by `_draw_treemap`: the node it represents, the
rectangle geometry handed to `TreemapRectItem`, and the label text added to
the scene when the item passes the size thresholds. -/
structure PlacedRect where
  node : FolderInfo
  x : ℚ
  y : ℚ
  w : ℚ
  h : ℚ
  label : Option String

/-- The share `item.total_size / total_size if total_size > 0 else 0`. -/
def itemFrac (totalSize : Nat) (item : FolderInfo) : ℚ :=
  if 0 < totalSize then (item.total_size : ℚ) / (totalSize : ℚ) else 0

/-- The per-item loop of `_draw_treemap`: the slice orientation `horiz` is
fixed for the whole call; each item takes its proportional share of the
slice axis (minus `spacing`) and the full cross-axis extent, and the cursor
advances by the unreduced share. -/
def drawRow (horiz : Bool) (width height : ℚ) (totalSize : Nat) :
    List FolderInfo → ℚ → ℚ → List PlacedRect
  | [], _, _ => []
  | item :: rest, cx, cy =>
    if horiz then
      ⟨item, cx, cy, width * itemFrac totalSize item - spacing, height,
        if 40 < width * itemFrac totalSize item ∧ 30 < height then some (labelText item)
        else none⟩ ::
        drawRow horiz width height totalSize rest (cx + width * itemFrac totalSize item) cy
    else
      ⟨item, cx, cy, width, height * itemFrac totalSize item - spacing,
        if 40 < width ∧ 30 < height * itemFrac totalSize item then some (labelText item)
        else none⟩ ::
        drawRow horiz width height totalSize rest cx (cy + height * itemFrac totalSize item)

/-- Model of `TreemapWidget._draw_treemap`: nothing for an empty list or degenerate
bounds; otherwise sort descending, pick the orientation once
(`use_horizontal = width >= height`), and lay the items out in a row. -/
def draw_treemap (items : List FolderInfo) (x y width height : ℚ) (totalSize : Nat) :
    List PlacedRect :=
  if items.isEmpty ∨ width ≤ 0 ∨ height ≤ 0 then []
  else drawRow (decide (height ≤ width)) width height totalSize (sortByTotalDesc items) x y

/-- Two placed rectangles overlap when both are nonempty and their interiors
intersect; rectangles with non-positive width or height are empty. -/
def overlaps (a b : PlacedRect) : Prop :=
  0 < a.w ∧ 0 < a.h ∧ 0 < b.w ∧ 0 < b.h ∧
  max a.x b.x < min (a.x + a.w) (b.x + b.w) ∧
  max a.y b.y < min (a.y + a.h) (b.y + b.h)

/-- The placed rectangle lies inside the bounding rectangle
`(x, y, w, h)`. -/
def inBounds (r : PlacedRect) (x y w h : ℚ) : Prop :=
  x ≤ r.x ∧ r.x + r.w ≤ x + w ∧ y ≤ r.y ∧ r.y + r.h ≤ y + h

/-- The sum of the proportional shares of a list of items. -/
def rowFracSum (totalSize : Nat) (l : List FolderInfo) : ℚ :=
  (l.map (itemFrac totalSize)).sum

end DiskAnalysis

namespace DiskAnalysis

theorem totalSizeList_eq_sum (l : List FolderInfo) :
    totalSizeList l = (l.map FolderInfo.total_size).sum := by
  induction l with
  | nil => rfl
  | cons c rest ih => simp [totalSizeList, ih]

theorem total_size_mk (p : String) (s : Nat) (cs : List FolderInfo) :
    (FolderInfo.mk p s cs).total_size = s + (cs.map FolderInfo.total_size).sum := by
  rw [FolderInfo.total_size, totalSizeList_eq_sum]

mutual
theorem scanFolder_mono : ∀ (kk c₁ c₂ : Nat) (e : FSEntry),
    (scanFolder (some kk) c₁ e).1.total_size ≤ (scanFolder none c₂ e).1.total_size
  | kk, c₁, c₂, .file p s => by
      simp [scanFolder, FolderInfo.total_size, totalSizeList]
  | kk, c₁, c₂, .dir p none => by
      simp [scanFolder, FolderInfo.total_size, totalSizeList]
  | kk, c₁, c₂, .dir p (some l) => by
      by_cases h : kk ≤ c₁
      · simp [scanFolder, cancelHit, h, FolderInfo.total_size, totalSizeList]
      · simp [scanFolder, cancelHit, h, FolderInfo.total_size, totalSizeList]
        exact scanEntries_mono kk (c₁ + 1) (c₂ + 1) l

theorem scanEntries_mono : ∀ (kk c₁ c₂ : Nat) (l : List FSEntry),
    totalSizeList (scanEntries (some kk) c₁ l).1 ≤ totalSizeList (scanEntries none c₂ l).1
  | kk, c₁, c₂, [] => le_refl _
  | kk, c₁, c₂, .file p none :: rest => scanEntries_mono kk c₁ c₂ rest
  | kk, c₁, c₂, .file p (some s) :: rest => by
      simp only [scanEntries, totalSizeList, FolderInfo.total_size]
      exact Nat.add_le_add_left (scanEntries_mono kk c₁ c₂ rest) _
  | kk, c₁, c₂, .dir p lst :: rest => by
      simp only [scanEntries, totalSizeList]
      exact Nat.add_le_add (scanFolder_mono kk c₁ c₂ (.dir p lst))
        (scanEntries_mono kk _ _ rest)
end

theorem scanFolder_cancelled (k : Option Nat) (c : Nat) (e : FSEntry)
    (h : cancelHit k c = true) :
    scanFolder k c e = (.mk e.path 0 [], c + 1) := by
  cases e with
  | file p s => simp [scanFolder, FSEntry.path]
  | dir p lst => cases lst <;> simp [scanFolder, FSEntry.path, h]

theorem insertByTotalDesc_perm (a : FolderInfo) (l : List FolderInfo) :
    (insertByTotalDesc a l).Perm (a :: l) := by
  induction l with
  | nil => exact List.Perm.refl _
  | cons b rest ih =>
    rw [insertByTotalDesc]
    by_cases h : b.total_size ≤ a.total_size
    · simp [h]
    · simp only [h, if_false]
      exact (ih.cons b).trans (List.Perm.swap a b rest)

theorem sortByTotalDesc_perm (l : List FolderInfo) :
    (sortByTotalDesc l).Perm l := by
  induction l with
  | nil => exact List.Perm.refl _
  | cons x xs ih =>
    have : sortByTotalDesc (x :: xs) = insertByTotalDesc x (sortByTotalDesc xs) := rfl
    rw [this]
    exact (insertByTotalDesc_perm x (sortByTotalDesc xs)).trans (ih.cons x)

theorem mem_insertByTotalDesc {y a : FolderInfo} {l : List FolderInfo} :
    y ∈ insertByTotalDesc a l ↔ y = a ∨ y ∈ l := by
  rw [(insertByTotalDesc_perm a l).mem_iff, List.mem_cons]

theorem pairwise_insertByTotalDesc (a : FolderInfo) (l : List FolderInfo)
    (h : l.Pairwise (fun u v => v.total_size ≤ u.total_size)) :
    (insertByTotalDesc a l).Pairwise (fun u v => v.total_size ≤ u.total_size) := by
  induction l with
  | nil => simp [insertByTotalDesc]
  | cons b rest ih =>
    rw [insertByTotalDesc]
    rcases List.pairwise_cons.1 h with ⟨hb, hrest⟩
    by_cases hba : b.total_size ≤ a.total_size
    · simp only [hba, if_true]
      refine List.pairwise_cons.2 ⟨?_, h⟩
      intro y hy
      rcases List.mem_cons.1 hy with rfl | hy
      · exact hba
      · exact le_trans (hb y hy) hba
    · simp only [hba, if_false]
      refine List.pairwise_cons.2 ⟨?_, ih hrest⟩
      intro y hy
      rcases mem_insertByTotalDesc.1 hy with rfl | hy
      · exact le_of_lt (lt_of_not_le hba)
      · exact hb y hy
end DiskAnalysis

namespace DiskAnalysis

theorem itemFrac_nonneg (T : Nat) (item : FolderInfo) : 0 ≤ itemFrac T item := by
  rw [itemFrac]
  split
  · positivity
  · exact le_refl 0

theorem rowFracSum_cons (T : Nat) (i : FolderInfo) (rest : List FolderInfo) :
    rowFracSum T (i :: rest) = itemFrac T i + rowFracSum T rest := by
  simp [rowFracSum]

theorem rowFracSum_nonneg (T : Nat) (l : List FolderInfo) : 0 ≤ rowFracSum T l := by
  induction l with
  | nil => simp [rowFracSum]
  | cons i rest ih =>
    rw [rowFracSum_cons]
    exact add_nonneg (itemFrac_nonneg T i) ih

theorem rowFracSum_le_one (T : Nat) (l : List FolderInfo)
    (hsum : (l.map FolderInfo.total_size).sum ≤ T) : rowFracSum T l ≤ 1 := by
  rcases Nat.eq_zero_or_pos T with hT | hT
  · subst hT
    have hz : ∀ m : List FolderInfo, rowFracSum 0 m = 0 := by
      intro m
      induction m with
      | nil => simp [rowFracSum]
      | cons i rest ih => rw [rowFracSum_cons, ih]; simp [itemFrac]
    rw [hz l]; norm_num
  · have hval : ∀ m : List FolderInfo,
        rowFracSum T m = ((m.map FolderInfo.total_size).sum : ℚ) / (T : ℚ) := by
      intro m
      induction m with
      | nil => simp [rowFracSum]
      | cons i rest ih =>
        rw [rowFracSum_cons, ih, itemFrac, if_pos hT, div_add_div_same,
          List.map_cons, List.sum_cons]
        norm_cast
    rw [hval l]
    rw [div_le_one (by exact_mod_cast hT)]
    exact_mod_cast hsum

theorem drawRow_true_mem (width height : ℚ) (T : Nat) (hw : 0 ≤ width)
    (l : List FolderInfo) :
    ∀ (cx cy : ℚ) (r : PlacedRect), r ∈ drawRow true width height T l cx cy →
      r.y = cy ∧ r.h = height ∧ cx ≤ r.x ∧
      r.x + r.w + spacing ≤ cx + width * rowFracSum T l := by
  induction l with
  | nil => intro cx cy r hr; simp [drawRow] at hr
  | cons item rest ih =>
    intro cx cy r hr
    have hfrac : 0 ≤ width * itemFrac T item := mul_nonneg hw (itemFrac_nonneg T item)
    have hrest : 0 ≤ width * rowFracSum T rest := mul_nonneg hw (rowFracSum_nonneg T rest)
    simp only [drawRow, if_pos, List.mem_cons] at hr
    rcases hr with rfl | hr
    · refine ⟨rfl, rfl, le_refl _, ?_⟩
      rw [rowFracSum_cons, spacing]
      ring_nf
      nlinarith
    · obtain ⟨h1, h2, h3, h4⟩ := ih (cx + width * itemFrac T item) cy r hr
      refine ⟨h1, h2, by linarith, ?_⟩
      rw [rowFracSum_cons]
      nlinarith

theorem drawRow_true_pairwise (width height : ℚ) (T : Nat) (hw : 0 ≤ width)
    (l : List FolderInfo) :
    ∀ cx cy : ℚ, (drawRow true width height T l cx cy).Pairwise
      (fun a b => a.x + a.w + spacing ≤ b.x) := by
  induction l with
  | nil => intro cx cy; simp [drawRow]
  | cons item rest ih =>
    intro cx cy
    simp only [drawRow, if_pos]
    refine List.pairwise_cons.2 ⟨?_, ih _ _⟩
    intro b hb
    obtain ⟨_, _, h3, _⟩ := drawRow_true_mem width height T hw rest _ cy b hb
    simp only [spacing]
    linarith [h3]

theorem drawRow_true_chain (width height : ℚ) (T : Nat) (l : List FolderInfo) :
    ∀ cx cy : ℚ, List.Chain' (fun a b : PlacedRect => b.x = a.x + a.w + spacing)
      (drawRow true width height T l cx cy) := by
  induction l with
  | nil => intro cx cy; simp [drawRow]
  | cons item rest ih =>
    intro cx cy
    cases rest with
    | nil => simp [drawRow]
    | cons j rest2 =>
      simp only [drawRow, if_pos]
      refine List.chain'_cons.2 ⟨?_, ?_⟩
      · simp only [spacing]; ring
      · have := ih (cx + width * itemFrac T item) cy
        simpa only [drawRow, if_pos] using this

theorem drawRow_map_node (horiz : Bool) (width height : ℚ) (T : Nat)
    (l : List FolderInfo) :
    ∀ cx cy : ℚ, (drawRow horiz width height T l cx cy).map PlacedRect.node = l := by
  induction l with
  | nil => intro cx cy; cases horiz <;> simp [drawRow]
  | cons item rest ih => intro cx cy; cases horiz <;> simp [drawRow, ih]

theorem drawRow_true_label (width height : ℚ) (T : Nat) (l : List FolderInfo) :
    ∀ (cx cy : ℚ) (r : PlacedRect), r ∈ drawRow true width height T l cx cy →
      r.label = if 40 < r.w + spacing ∧ 30 < r.h then some (labelText r.node) else none := by
  induction l with
  | nil => intro cx cy r hr; simp [drawRow] at hr
  | cons item rest ih =>
    intro cx cy r hr
    simp only [drawRow, if_pos, List.mem_cons] at hr
    rcases hr with rfl | hr
    · simp only [sub_add_cancel]
    · exact ih _ cy r hr

end DiskAnalysis

namespace DiskAnalysis

theorem drawRow_false_mem (width height : ℚ) (T : Nat) (hh : 0 ≤ height)
    (l : List FolderInfo) :
    ∀ (cx cy : ℚ) (r : PlacedRect), r ∈ drawRow false width height T l cx cy →
      r.x = cx ∧ r.w = width ∧ cy ≤ r.y ∧
      r.y + r.h + spacing ≤ cy + height * rowFracSum T l := by
  induction l with
  | nil => intro cx cy r hr; simp [drawRow] at hr
  | cons item rest ih =>
    intro cx cy r hr
    have hfrac : 0 ≤ height * itemFrac T item := mul_nonneg hh (itemFrac_nonneg T item)
    have hrest : 0 ≤ height * rowFracSum T rest := mul_nonneg hh (rowFracSum_nonneg T rest)
    simp only [drawRow, Bool.false_eq_true, if_neg, ite_false, List.mem_cons] at hr
    rcases hr with rfl | hr
    · refine ⟨rfl, rfl, le_refl _, ?_⟩
      rw [rowFracSum_cons, spacing]
      ring_nf
      nlinarith
    · obtain ⟨h1, h2, h3, h4⟩ := ih cx (cy + height * itemFrac T item) r hr
      refine ⟨h1, h2, by linarith, ?_⟩
      rw [rowFracSum_cons]
      nlinarith

theorem drawRow_false_pairwise (width height : ℚ) (T : Nat) (hh : 0 ≤ height)
    (l : List FolderInfo) :
    ∀ cx cy : ℚ, (drawRow false width height T l cx cy).Pairwise
      (fun a b => a.y + a.h + spacing ≤ b.y) := by
  induction l with
  | nil => intro cx cy; simp [drawRow]
  | cons item rest ih =>
    intro cx cy
    simp only [drawRow, Bool.false_eq_true, if_neg, ite_false]
    refine List.pairwise_cons.2 ⟨?_, ih _ _⟩
    intro b hb
    obtain ⟨_, _, h3, _⟩ := drawRow_false_mem width height T hh rest cx _ b hb
    simp only [spacing]
    linarith [h3]

theorem drawRow_false_chain (width height : ℚ) (T : Nat) (l : List FolderInfo) :
    ∀ cx cy : ℚ, List.Chain' (fun a b : PlacedRect => b.y = a.y + a.h + spacing)
      (drawRow false width height T l cx cy) := by
  induction l with
  | nil => intro cx cy; simp [drawRow]
  | cons item rest ih =>
    intro cx cy
    cases rest with
    | nil => simp [drawRow]
    | cons j rest2 =>
      simp only [drawRow, Bool.false_eq_true, if_neg, ite_false]
      refine List.chain'_cons.2 ⟨?_, ?_⟩
      · simp only [spacing]; ring
      · have := ih cx (cy + height * itemFrac T item)
        simpa only [drawRow, Bool.false_eq_true, if_neg, ite_false] using this

theorem drawRow_false_label (width height : ℚ) (T : Nat) (l : List FolderInfo) :
    ∀ (cx cy : ℚ) (r : PlacedRect), r ∈ drawRow false width height T l cx cy →
      r.label = if 40 < r.w ∧ 30 < r.h + spacing then some (labelText r.node) else none := by
  induction l with
  | nil => intro cx cy r hr; simp [drawRow] at hr
  | cons item rest ih =>
    intro cx cy r hr
    simp only [drawRow, Bool.false_eq_true, if_neg, ite_false, List.mem_cons] at hr
    rcases hr with rfl | hr
    · simp only [sub_add_cancel]
    · exact ih cx _ r hr

theorem filter_insertByTotalDesc (a : FolderInfo) (l : List FolderInfo) (t : Nat) :
    (insertByTotalDesc a l).filter (fun b => b.total_size == t)
      = ((a :: l).filter (fun b => b.total_size == t)) := by
  induction l with
  | nil => rfl
  | cons b rest ih =>
    rw [insertByTotalDesc]
    by_cases hba : b.total_size ≤ a.total_size
    · simp [hba]
    · have hab : a.total_size < b.total_size := lt_of_not_le hba
      simp only [hba, if_false]
      by_cases hat : a.total_size = t
      · have hbt : b.total_size ≠ t := by omega
        simp [List.filter_cons, hat, hbt, ih]
      · by_cases hbt : b.total_size = t
        · simp [List.filter_cons, hat, hbt, ih]
        · simp [List.filter_cons, hat, hbt, ih]

theorem filter_sortByTotalDesc (l : List FolderInfo) (t : Nat) :
    (sortByTotalDesc l).filter (fun b => b.total_size == t)
      = l.filter (fun b => b.total_size == t) := by
  induction l with
  | nil => rfl
  | cons x xs ih =>
    have hfold : sortByTotalDesc (x :: xs) = insertByTotalDesc x (sortByTotalDesc xs) := rfl
    rw [hfold, filter_insertByTotalDesc]
    by_cases hx : x.total_size = t
    · simp [List.filter_cons, hx, ih]
    · simp [List.filter_cons, hx, ih]

theorem sortByTotalDesc_pairwise (l : List FolderInfo) :
    (sortByTotalDesc l).Pairwise (fun u v => v.total_size ≤ u.total_size) := by
  induction l with
  | nil => simp [sortByTotalDesc]
  | cons x xs ih => exact pairwise_insertByTotalDesc x (sortByTotalDesc xs) ih

end DiskAnalysis

namespace DiskAnalysis

/-- C1 (amended): a nonexistent root yields the failure outcome and never a
tree; every existing root — including one whose listing cannot be read,
which yields a childless node of own size 0 — yields a tree delivered as
success, for every cancellation behaviour. -/
theorem claim_C1_root_outcomes (k : Option Nat) :
    workerRun k none = .failed "Failed to scan folder" ∧
    (∀ e : FSEntry, workerRun k (some e) = .completed (scanFolder k 0 e).1) ∧
    (∀ p : String, workerRun k (some (.dir p none)) = .completed (.mk p 0 [])) := by
  refine ⟨rfl, fun e => rfl, fun p => ?_⟩
  simp [workerRun, scan, scanFolder]

/-- C1 (counterexample): a root that exists but whose listing cannot be read
produces a tree delivered as success, not a top-level failure as the claim
states. -/
theorem claim_C1_unreadable_root_counterexample :
    scan none (some (.dir "/locked" none)) = some (.mk "/locked" 0 []) ∧
    workerRun none (some (.dir "/locked" none)) = .completed (.mk "/locked" 0 []) := by
  constructor
  · simp [scan, scanFolder, cancelHit]
  · simp [workerRun, scan, scanFolder, cancelHit]

/-- C2: the derived total size is the node's own size plus the sum of the
children's total sizes, recursively; a leaf's total equals its own size and
an empty size-0 node has total 0. -/
theorem claim_C2_total_size (p : String) (s : Nat) (cs : List FolderInfo) :
    (FolderInfo.mk p s cs).total_size = s + (cs.map FolderInfo.total_size).sum ∧
    (FolderInfo.mk p s []).total_size = s ∧
    (FolderInfo.mk p 0 []).total_size = 0 ∧
    ∀ n : FolderInfo, n.total_size = n.size + (n.children.map FolderInfo.total_size).sum := by
  refine ⟨total_size_mk p s cs, ?_, ?_, ?_⟩
  · rw [total_size_mk]; simp
  · rw [total_size_mk]; simp
  · intro n
    cases n with
    | mk q t ds => rw [total_size_mk]; rfl

/-- C3: whatever the point of cancellation, a scan of an existing root still
ends in the completed outcome; the truncated tree's total size never exceeds
the uncancelled scan's; and any folder reached after the flag is set becomes
a childless node of own size 0. -/
theorem claim_C3_cancellation (e : FSEntry) (k : Nat) :
    workerRun (some k) (some e) = .completed (scanFolder (some k) 0 e).1 ∧
    (scanFolder (some k) 0 e).1.total_size ≤ (scanFolder none 0 e).1.total_size ∧
    (∀ (c : Nat) (d : FSEntry), cancelHit (some k) c = true →
      scanFolder (some k) c d = (.mk d.path 0 [], c + 1)) :=
  ⟨rfl, scanFolder_mono k 0 0 e, fun c d h => scanFolder_cancelled (some k) c d h⟩

/-- C3 (witness): cancelling after the first directory check truncates the
subdirectory and the truncated total 0 is at most the uncancelled total 7. -/
theorem claim_C3_cancellation_witness :
    cancelHit (some 1) 1 = true ∧
    workerRun (some 1)
        (some (.dir "r" (some [.dir "r/s" (some [.file "r/s/f" (some 7)])])))
      = .completed (.mk "r" 0 [.mk "r/s" 0 []]) ∧
    (scanFolder (some 1) 0
        (.dir "r" (some [.dir "r/s" (some [.file "r/s/f" (some 7)])]))).1.total_size ≤
      (scanFolder none 0
        (.dir "r" (some [.dir "r/s" (some [.file "r/s/f" (some 7)])]))).1.total_size ∧
    scanFolder (some 1) 1 (.dir "r/s" (some [.file "r/s/f" (some 7)]))
      = (.mk "r/s" 0 [], 2) := by
  have H := claim_C3_cancellation
    (.dir "r" (some [.dir "r/s" (some [.file "r/s/f" (some 7)])])) 1
  exact ⟨rfl, by rw [H.1]; rfl, H.2.1, H.2.2 1 (.dir "r/s" (some [.file "r/s/f" (some 7)])) rfl⟩

/-- C4: a file whose size cannot be read is skipped (the scan of the rest is
unchanged), and a subdirectory whose listing fails still appears as a
childless node of own size 0 rather than vanishing. -/
theorem claim_C4_per_entry_errors (k : Option Nat) (c : Nat) (p : String)
    (rest : List FSEntry) :
    scanEntries k c (.file p none :: rest) = scanEntries k c rest ∧
    scanEntries k c (.dir p none :: rest)
      = ((.mk p 0 []) :: (scanEntries k (c + 1) rest).1, (scanEntries k (c + 1) rest).2) := by
  constructor
  · rw [scanEntries]
  · rw [scanEntries]
    simp [scanFolder]

/-- C9: `format_size` divides by 1024 through the listed units with one
decimal digit; the three stated values hold and anything at least `1024^5`
falls through every unit to a `PB` string. -/
theorem claim_C9_format_size :
    format_size 0 = "0.0 B" ∧ format_size 1536 = "1.5 KB" ∧
    format_size 1048576 = "1.0 MB" ∧
    ∀ n : Nat, 1024 ^ 5 ≤ n →
      format_size n = decimal1 ((n : ℚ) / 1024 ^ 5) ++ " PB" := by
  refine ⟨?_, ?_, ?_, ?_⟩
  · norm_num [format_size, format_size_go, decimal1, roundHalfEven]; rfl
  · norm_num [format_size, format_size_go, decimal1, roundHalfEven]; rfl
  · norm_num [format_size, format_size_go, decimal1, roundHalfEven]; rfl
  · intro n hn
    have hn2 : (1125899906842624 : ℕ) ≤ n := by norm_num at hn; exact hn
    have hq : (1125899906842624 : ℚ) ≤ (n : ℚ) := by exact_mod_cast hn2
    have h1 : ¬ ((n : ℚ) < 1024) := by rw [not_lt]; linarith
    have h2 : ¬ ((n : ℚ) / 1024 < 1024) := by
      rw [not_lt, le_div_iff₀ (by norm_num : (0:ℚ) < 1024)]; linarith
    have h3 : ¬ ((n : ℚ) / 1024 / 1024 < 1024) := by
      rw [not_lt, div_div, le_div_iff₀ (by norm_num : (0:ℚ) < 1024 * 1024)]; linarith
    have h4 : ¬ ((n : ℚ) / 1024 / 1024 / 1024 < 1024) := by
      rw [not_lt, div_div, div_div,
        le_div_iff₀ (by norm_num : (0:ℚ) < 1024 * (1024 * 1024))]
      linarith
    have h5 : ¬ ((n : ℚ) / 1024 / 1024 / 1024 / 1024 < 1024) := by
      rw [not_lt, div_div, div_div, div_div,
        le_div_iff₀ (by norm_num : (0:ℚ) < 1024 * (1024 * (1024 * 1024)))]
      linarith
    rw [format_size, format_size_go, if_neg h1, format_size_go, if_neg h2,
      format_size_go, if_neg h3, format_size_go, if_neg h4,
      format_size_go, if_neg h5, format_size_go]
    congr 2
    rw [div_div, div_div, div_div, div_div]
    norm_num

/-- C9 (witness): the PB clause applied at `n = 1024^5` itself. -/
theorem claim_C9_format_size_witness :
    1024 ^ 5 ≤ 1024 ^ 5 ∧
    format_size (1024 ^ 5) = decimal1 (((1024 ^ 5 : Nat) : ℚ) / 1024 ^ 5) ++ " PB" :=
  ⟨le_refl _, claim_C9_format_size.2.2.2 (1024 ^ 5) (le_refl _)⟩

/-- C10: the percentage helper returns `size / total * 100` exactly when
`total > 0` and 0 for every non-positive total, so the division is always
guarded. -/
theorem claim_C10_calculate_percentage (size total : ℤ) :
    (0 < total → calculate_percentage size total = (size : ℚ) / (total : ℚ) * 100) ∧
    (total ≤ 0 → calculate_percentage size total = 0) ∧
    calculate_percentage size 0 = 0 := by
  refine ⟨fun h => ?_, fun h => ?_, ?_⟩
  · rw [calculate_percentage, if_pos h]
  · rw [calculate_percentage, if_neg (not_lt.2 h)]
  · rw [calculate_percentage, if_neg (lt_irrefl 0)]

/-- C10 (witness): both guard branches exercised at concrete inputs. -/
theorem claim_C10_calculate_percentage_witness :
    (0 : ℤ) < 10 ∧ calculate_percentage 5 10 = (5 : ℚ) / (10 : ℚ) * 100 ∧
    (-3 : ℤ) ≤ 0 ∧ calculate_percentage 7 (-3) = 0 :=
  ⟨by norm_num, (claim_C10_calculate_percentage 5 10).1 (by norm_num),
   by norm_num, (claim_C10_calculate_percentage 7 (-3)).2.1 (by norm_num)⟩

end DiskAnalysis

namespace DiskAnalysis

theorem sep_x_not_overlaps (a b : PlacedRect) (hab : a.x + a.w + spacing ≤ b.x) :
    ¬ overlaps a b := by
  rintro ⟨-, -, -, -, hx, -⟩
  have h1 : min (a.x + a.w) (b.x + b.w) ≤ a.x + a.w := min_le_left _ _
  have h2 : b.x ≤ max a.x b.x := le_max_right _ _
  rw [spacing] at hab
  linarith

theorem sep_y_not_overlaps (a b : PlacedRect) (hab : a.y + a.h + spacing ≤ b.y) :
    ¬ overlaps a b := by
  rintro ⟨-, -, -, -, -, hy⟩
  have h1 : min (a.y + a.h) (b.y + b.h) ≤ a.y + a.h := min_le_left _ _
  have h2 : b.y ≤ max a.y b.y := le_max_right _ _
  rw [spacing] at hab
  linarith

/-- C5: under the documented preconditions every produced rectangle lies in
the bounding rectangle, the rectangles are pairwise non-overlapping, and in
the orientation chosen for the call every item spans the full cross-axis
extent while a running cursor advances along the slice axis by the item's
extent plus the spacing gap. -/
theorem claim_C5_layout_invariants (items : List FolderInfo) (x y w h : ℚ) (T : Nat)
    (hw : 0 < w) (hh : 0 < h)
    (hsum : (items.map FolderInfo.total_size).sum ≤ T) :
    (∀ r ∈ draw_treemap items x y w h T, inBounds r x y w h) ∧
    (draw_treemap items x y w h T).Pairwise (fun a b => ¬ overlaps a b) ∧
    (h ≤ w → (∀ r ∈ draw_treemap items x y w h T, r.y = y ∧ r.h = h) ∧
      List.Chain' (fun a b : PlacedRect => b.x = a.x + a.w + spacing)
        (draw_treemap items x y w h T)) ∧
    (w < h → (∀ r ∈ draw_treemap items x y w h T, r.x = x ∧ r.w = w) ∧
      List.Chain' (fun a b : PlacedRect => b.y = a.y + a.h + spacing)
        (draw_treemap items x y w h T)) := by
  by_cases hemp : items.isEmpty
  · simp [draw_treemap, hemp]
  · have hguard : ¬(items.isEmpty = true ∨ w ≤ 0 ∨ h ≤ 0) := by
      push_neg
      exact ⟨by simpa using hemp, hw, hh⟩
    rw [draw_treemap, if_neg hguard]
    have hsum2 : ((sortByTotalDesc items).map FolderInfo.total_size).sum ≤ T := by
      rw [((sortByTotalDesc_perm items).map FolderInfo.total_size).sum_eq]
      exact hsum
    have hS1 : rowFracSum T (sortByTotalDesc items) ≤ 1 :=
      rowFracSum_le_one T (sortByTotalDesc items) hsum2
    by_cases hor : h ≤ w
    · rw [decide_eq_true hor]
      have hwle : 0 ≤ w := le_of_lt hw
      refine ⟨?_, ?_, fun _ => ⟨?_, ?_⟩, fun hcon => absurd hcon (not_lt.2 hor)⟩
      · intro r hr
        obtain ⟨h1, h2, h3, h4⟩ := drawRow_true_mem w h T hwle (sortByTotalDesc items) x y r hr
        have hSw : w * rowFracSum T (sortByTotalDesc items) ≤ w := by
          nlinarith
        rw [spacing] at h4
        exact ⟨h3, by linarith, le_of_eq h1.symm, by rw [h1, h2]⟩
      · exact (drawRow_true_pairwise w h T hwle (sortByTotalDesc items) x y).imp
          (fun hab => sep_x_not_overlaps _ _ hab)
      · intro r hr
        obtain ⟨h1, h2, -, -⟩ := drawRow_true_mem w h T hwle (sortByTotalDesc items) x y r hr
        exact ⟨h1, h2⟩
      · exact drawRow_true_chain w h T (sortByTotalDesc items) x y
    · rw [decide_eq_false hor]
      have hwlt : w < h := lt_of_not_le hor
      have hhle : 0 ≤ h := le_of_lt hh
      refine ⟨?_, ?_, fun hcon => absurd hcon hor, fun _ => ⟨?_, ?_⟩⟩
      · intro r hr
        obtain ⟨h1, h2, h3, h4⟩ := drawRow_false_mem w h T hhle (sortByTotalDesc items) x y r hr
        have hSh : h * rowFracSum T (sortByTotalDesc items) ≤ h := by
          nlinarith
        rw [spacing] at h4
        exact ⟨le_of_eq h1.symm, by rw [h1, h2], h3, by linarith⟩
      · exact (drawRow_false_pairwise w h T hhle (sortByTotalDesc items) x y).imp
          (fun hab => sep_y_not_overlaps _ _ hab)
      · intro r hr
        obtain ⟨h1, h2, -, -⟩ := drawRow_false_mem w h T hhle (sortByTotalDesc items) x y r hr
        exact ⟨h1, h2⟩
      · exact drawRow_false_chain w h T (sortByTotalDesc items) x y

/-- C5 (witness): the invariants applied to the two-child layout in bounds
100 by 10 with total 4. -/
theorem claim_C5_layout_invariants_witness :
    (0 : ℚ) < 100 ∧ (0 : ℚ) < 10 ∧
    ([FolderInfo.mk "a" 3 [], FolderInfo.mk "b" 1 []].map FolderInfo.total_size).sum ≤ 4 ∧
    (∀ r ∈ draw_treemap [FolderInfo.mk "a" 3 [], FolderInfo.mk "b" 1 []] 0 0 100 10 4,
      inBounds r 0 0 100 10) ∧
    (draw_treemap [FolderInfo.mk "a" 3 [], FolderInfo.mk "b" 1 []] 0 0 100 10 4).Pairwise
      (fun a b => ¬ overlaps a b) := by
  have H := claim_C5_layout_invariants [FolderInfo.mk "a" 3 [], FolderInfo.mk "b" 1 []]
    0 0 100 10 4 (by norm_num) (by norm_num)
    (by norm_num [FolderInfo.total_size, totalSizeList])
  exact ⟨by norm_num, by norm_num,
    by norm_num [FolderInfo.total_size, totalSizeList], H.1, H.2.1⟩

end DiskAnalysis

namespace DiskAnalysis

/-- C6: two children of total sizes 3 and 1 in bounds 100 by 10 (total 4)
are laid out horizontally: the larger child gets width 75 minus the spacing
and the other width 25 minus the spacing, the second starting at the first
child's cursor position 75; both span the full height 10 and do not
overlap. -/
theorem claim_C6_two_children_layout :
    draw_treemap [FolderInfo.mk "a" 3 [], FolderInfo.mk "b" 1 []] 0 0 100 10 4
      = [⟨FolderInfo.mk "a" 3 [], 0, 0, 75 - spacing, 10, none⟩,
         ⟨FolderInfo.mk "b" 1 [], 75, 0, 25 - spacing, 10, none⟩] ∧
    ((10 : ℚ) ≤ 100) ∧
    ¬ overlaps ⟨FolderInfo.mk "a" 3 [], 0, 0, 75 - spacing, 10, none⟩
        ⟨FolderInfo.mk "b" 1 [], 75, 0, 25 - spacing, 10, none⟩ := by
  refine ⟨?_, by norm_num, ?_⟩
  · norm_num [draw_treemap, drawRow, sortByTotalDesc, insertByTotalDesc, itemFrac,
      spacing, FolderInfo.total_size, totalSizeList]
  · rintro ⟨-, -, -, -, hx, -⟩
    have h1 : min ((0 : ℚ) + (75 - spacing)) (75 + (25 - spacing)) ≤ 0 + (75 - spacing) :=
      min_le_left _ _
    have h2 : (75 : ℚ) ≤ max (0 : ℚ) 75 := le_max_right _ _
    rw [spacing] at h1
    simp only [spacing] at hx
    linarith

/-- C7: the layout sequence is the children sorted descending by total size
with a stable sort: the sorted list is a permutation of the input, is
pairwise descending, and elements of any fixed total size keep their
original discovery order. -/
theorem claim_C7_stable_sort (items : List FolderInfo) (x y w h : ℚ) (T : Nat)
    (hw : 0 < w) (hh : 0 < h) (hne : items ≠ []) :
    (draw_treemap items x y w h T).map PlacedRect.node = sortByTotalDesc items ∧
    (sortByTotalDesc items).Perm items ∧
    (sortByTotalDesc items).Pairwise (fun u v => v.total_size ≤ u.total_size) ∧
    ∀ t : Nat, (sortByTotalDesc items).filter (fun i => i.total_size == t)
      = items.filter (fun i => i.total_size == t) := by
  refine ⟨?_, sortByTotalDesc_perm items, sortByTotalDesc_pairwise items,
    fun t => filter_sortByTotalDesc items t⟩
  have hguard : ¬(items.isEmpty = true ∨ w ≤ 0 ∨ h ≤ 0) := by
    push_neg
    exact ⟨by simpa using hne, hw, hh⟩
  rw [draw_treemap, if_neg hguard, drawRow_map_node]

/-- C7 (witness): two children of equal total size 1 keep their discovery
order around the larger middle child. -/
theorem claim_C7_stable_sort_witness :
    (sortByTotalDesc [FolderInfo.mk "u" 1 [], FolderInfo.mk "v" 2 [], FolderInfo.mk "z" 1 []]).filter
        (fun i => i.total_size == 1)
      = [FolderInfo.mk "u" 1 [], FolderInfo.mk "z" 1 []] := by
  have H := claim_C7_stable_sort
    [FolderInfo.mk "u" 1 [], FolderInfo.mk "v" 2 [], FolderInfo.mk "z" 1 []]
    0 0 100 50 4 (by norm_num) (by norm_num) (by simp)
  rw [H.2.2.2 1]
  rfl

/-- C8: a produced rectangle carries label text exactly when the item's
allocated slice-axis extent (the rectangle's extent plus the spacing gap)
exceeds 40 and its cross-axis extent exceeds 30; other rectangles are still
produced with no label. -/
theorem claim_C8_label_thresholds (items : List FolderInfo) (x y w h : ℚ) (T : Nat) :
    ∀ r ∈ draw_treemap items x y w h T,
      r.label = if h ≤ w
        then (if 40 < r.w + spacing ∧ 30 < r.h then some (labelText r.node) else none)
        else (if 40 < r.w ∧ 30 < r.h + spacing then some (labelText r.node) else none) := by
  intro r hr
  rw [draw_treemap] at hr
  by_cases hguard : (items.isEmpty = true ∨ w ≤ 0 ∨ h ≤ 0)
  · rw [if_pos hguard] at hr
    simp at hr
  · rw [if_neg hguard] at hr
    by_cases hor : h ≤ w
    · rw [if_pos hor]
      rw [decide_eq_true hor] at hr
      exact drawRow_true_label w h T (sortByTotalDesc items) x y r hr
    · rw [if_neg hor]
      rw [decide_eq_false hor] at hr
      exact drawRow_false_label w h T (sortByTotalDesc items) x y r hr

/-- C8 (witness): a single large child in a 100 by 100 bounding box passes
both thresholds and carries the label text. -/
theorem claim_C8_label_thresholds_witness :
    (PlacedRect.mk (FolderInfo.mk "aa" 50 []) 0 0 95 100
        (some (labelText (FolderInfo.mk "aa" 50 [])))).label
      = if (100 : ℚ) ≤ 100
        then (if 40 < (95 : ℚ) + spacing ∧ 30 < (100 : ℚ)
          then some (labelText (FolderInfo.mk "aa" 50 [])) else none)
        else (if 40 < (95 : ℚ) ∧ 30 < (100 : ℚ) + spacing
          then some (labelText (FolderInfo.mk "aa" 50 [])) else none) := by
  have hout : draw_treemap [FolderInfo.mk "aa" 50 []] 0 0 100 100 50
      = [⟨FolderInfo.mk "aa" 50 [], 0, 0, 95, 100,
          some (labelText (FolderInfo.mk "aa" 50 []))⟩] := by
    norm_num [draw_treemap, drawRow, sortByTotalDesc, insertByTotalDesc, itemFrac,
      spacing, FolderInfo.total_size, totalSizeList, labelText]
  have hr : (PlacedRect.mk (FolderInfo.mk "aa" 50 []) 0 0 95 100
      (some (labelText (FolderInfo.mk "aa" 50 []))))
      ∈ draw_treemap [FolderInfo.mk "aa" 50 []] 0 0 100 100 50 := by
    rw [hout]
    exact List.mem_singleton_self _
  exact claim_C8_label_thresholds [FolderInfo.mk "aa" 50 []] 0 0 100 100 50 _ hr

end DiskAnalysis
